import Mathlib

/-!
Verification development for the ticket-quality repository: a shallow
embedding of the quality scorer (`extract_and_assess.py`), the cache merge
(`save_to_cache.py`), the reconciler (`sync_cache.py`) and the completeness
checker (`check_cache.py`), with theorems settling the frozen claims.

Python strings are embedded as `List Char`; the JSON-shaped Python values the
cache holds (null, string, number, boolean) as `Value`; Python dicts as
insertion-ordered association lists whose update keeps the key's position
(as CPython dicts do).  Recursive text scanners take a fuel argument so that
the kernel can evaluate them inside `decide`; the supplied fuel always
exceeds the input length, so it never runs out.
-/

namespace TicketQuality

abbrev Str := List Char

/-- JSON-shaped Python values as stored in the cache: `None`, `str`, `int`,
`bool`.  Lists/objects never flow through the merge comparisons or the
completeness checks for the fields the claims concern, so they are not
modelled. -/
inductive Value where
  | VNull : Value
  | VStr : Str → Value
  | VNum : Int → Value
  | VBool : Bool → Value
deriving DecidableEq, Repr

open Value

/-- Python truthiness, `bool(v)`. -/
def truthy : Value → Bool
  | VNull => false
  | VStr s => !s.isEmpty
  | VNum n => n != 0
  | VBool b => b

/-- Decimal digits of a `Nat`, most significant first; fuel-structured so the
kernel reduces it (fuel `n + 1` always suffices). -/
def natToStrF : Nat → Nat → Str
  | 0, _ => []
  | fuel + 1, n =>
    if n < 10 then [Char.ofNat (48 + n)]
    else natToStrF fuel (n / 10) ++ [Char.ofNat (48 + n % 10)]

/-- Decimal rendering of a `Nat`, as Python `str` produces it. -/
def natToStr (n : Nat) : Str := natToStrF (n + 1) n

/-- Python `str(v)` for the modelled values: `str(None) = "None"`,
`str(True) = "True"`, `str(False) = "False"`, decimal for ints. -/
def strProxy : Value → Str
  | VNull => ( "None").toList
  | VStr s => s
  | VNum n => if n < 0 then '-' :: natToStr n.natAbs else natToStr n.natAbs
  | VBool b => if b then ( "True").toList else ( "False").toList

/-- `len(str(v))`, the length proxy the cache merge compares. -/
def strLen (v : Value) : Nat := (strProxy v).length

/-- The whitespace characters Python `str.split` / `str.strip` use (ASCII). -/
def isPySpace (c : Char) : Bool :=
  c = ' ' ∨ c = '\t' ∨ c = '\n' ∨ c = '\x0d' ∨ c = '\x0b' ∨ c = '\x0c'

/-- ASCII lower-casing, modelling Python `str.lower` on the ASCII texts the
scorer handles. -/
def asciiLower (c : Char) : Char :=
  if 'A' ≤ c ∧ c ≤ 'Z' then Char.ofNat (c.toNat + 32) else c

def pyLower (s : Str) : Str := s.map asciiLower

/-- Python substring test `needle in hay`. -/
def containsSub (needle : Str) : Str → Bool
  | [] => needle.isPrefixOf []
  | c :: r => needle.isPrefixOf (c :: r) || containsSub needle r

/-- Helper for `count_words`: the flag records whether the previous character
belonged to a word. -/
def countWordsAux : Bool → Str → Nat
  | _, [] => 0
  | inWord, c :: r =>
    if isPySpace c then countWordsAux false r
    else (if inWord then 0 else 1) + countWordsAux true r

/-- `count_words` of `extract_and_assess.py`: `len(text.split())`, the number
of maximal whitespace-separated runs. -/
def count_words (s : Str) : Nat := countWordsAux false s

/-- Python `str.strip()`: drop leading and trailing whitespace. -/
def stripStr (s : Str) : Str :=
  ((s.dropWhile isPySpace).reverse.dropWhile isPySpace).reverse

/-- Position just after the first `>` of the string, if any. -/
def afterGt : Str → Option Str
  | [] => none
  | c :: r => if c = '>' then some r else afterGt r

/-- Given the text right after a `<`: the remainder after the regex
`<[^>]+>` match starting at that `<`, if it matches (at least one non-`>`
character before the first `>`). -/
def spanAfterGt : Str → Option Str
  | [] => none
  | c :: r => if c = '>' then none else afterGt r

/-- `re.sub(r'<[^>]+>', ' ', s)`: each leftmost tag-shaped span becomes one
space.  Fuel-structured; fuel `length + 1` suffices since every step consumes
at least one input character. -/
def stripTagsF : Nat → Str → Str
  | 0, s => s
  | _ + 1, [] => []
  | fuel + 1, c :: r =>
    if c = '<' then
      match spanAfterGt r with
      | some rest => ' ' :: stripTagsF fuel rest
      | none => '<' :: stripTagsF fuel r
    else c :: stripTagsF fuel r

def stripTags (s : Str) : Str := stripTagsF (s.length + 1) s

/-- `re.sub(r'\\s+', ' ', s)` exactly as the source writes it: the raw string
`r'\\s+'` is the regex matching one literal backslash followed by one or more
letters `s` — not a whitespace run. -/
def bsSubF : Nat → Str → Str
  | 0, s => s
  | _ + 1, [] => []
  | fuel + 1, c :: r =>
    if c = '\\' then
      match r with
      | [] => ['\\']
      | d :: r2 =>
        if d = 's' then ' ' :: bsSubF fuel (r2.dropWhile (fun x => x = 's'))
        else '\\' :: bsSubF fuel r
    else c :: bsSubF fuel r

def bsSub (s : Str) : Str := bsSubF (s.length + 1) s

/-- `strip_html` of `extract_and_assess.py`: falsy input yields `""`;
otherwise tag spans become spaces, the (mis-written) backslash-s regex is
applied, and the result is stripped. -/
def strip_html (v : Value) : Str :=
  if truthy v then stripStr (bsSub (stripTags (strProxy v))) else []

/-! ## Date parsing (`parse_date`)

`parse_date` replaces every `Z` with `+00:00` and calls
`datetime.fromisoformat`, returning `None` on failure.  `fromisoformat` is a
Python library routine; it is modelled here on the grammar
`YYYY-MM-DD[*HH[:MM[:SS[.f018 digits]]][±HH:MM]]` (`*` any separator
character, fraction exactly 3 or 6 digits, CPython 3.7–3.10), producing the
naive wall-clock timestamp in whole seconds — the scorer immediately drops
the offset with `replace(tzinfo=None)`, so only parse success depends on it.
Timestamps count seconds from 0000-03-01 so that differences are exact. -/

def isDigitCh (c : Char) : Bool := '0' ≤ c ∧ c ≤ '9'

def digitVal (c : Char) : Nat := c.toNat - 48

def read2 : Str → Option (Nat × Str)
  | a :: b :: r =>
    if isDigitCh a ∧ isDigitCh b then some (10 * digitVal a + digitVal b, r)
    else none
  | _ => none

def read4 : Str → Option (Nat × Str)
  | a :: b :: c :: d :: r =>
    if isDigitCh a ∧ isDigitCh b ∧ isDigitCh c ∧ isDigitCh d then
      some (1000 * digitVal a + 100 * digitVal b + 10 * digitVal c + digitVal d, r)
    else none
  | _ => none

def isLeap (y : Nat) : Bool := y % 4 = 0 ∧ (y % 100 ≠ 0 ∨ y % 400 = 0)

def daysInMonth (y m : Nat) : Nat :=
  if m = 2 then (if isLeap y then 29 else 28)
  else if m = 4 ∨ m = 6 ∨ m = 9 ∨ m = 11 then 30
  else 31

/-- Days from 0000-03-01 to the civil date `y-m-d` (valid for `y ≥ 1`),
the standard era-based civil-calendar count. -/
def daysFromCivil (y m d : Nat) : Nat :=
  let y2 := y - (if m ≤ 2 then 1 else 0)
  let era := y2 / 400
  let yoe := y2 % 400
  let mp := (m + 9) % 12
  let doy := (153 * mp + 2) / 5 + (d - 1)
  let doe := yoe * 365 + yoe / 4 - yoe / 100 + doy
  era * 146097 + doe

/-- Exactly-3-or-6-digit fraction after the decimal point; its value is below
one second and is dropped. -/
def readFrac (s : Str) : Option Str :=
  let ds := s.takeWhile isDigitCh
  if ds.length = 3 ∨ ds.length = 6 then some (s.drop ds.length) else none

/-- A UTC-offset suffix `±HH:MM` (or nothing). -/
def offsetOk : Str → Bool
  | [] => true
  | c :: r =>
    if c = '+' ∨ c = '-' then
      match read2 r with
      | some (hh, r1) =>
        match r1 with
        | ':' :: r2 =>
          match read2 r2 with
          | some (mm, r3) => hh ≤ 23 ∧ mm ≤ 59 ∧ r3 = []
          | none => false
        | _ => false
      | none => false
    else false

/-- `HH[:MM[:SS[.frac]]]` → seconds within the day, plus the unconsumed
remainder (where the offset may start). -/
def parseHMS (s : Str) : Option (Nat × Str) :=
  match read2 s with
  | none => none
  | some (hh, r1) =>
    if 23 < hh then none
    else
      match r1 with
      | ':' :: r2 =>
        match read2 r2 with
        | none => none
        | some (mm, r3) =>
          if 59 < mm then none
          else
            match r3 with
            | ':' :: r4 =>
              match read2 r4 with
              | none => none
              | some (ss, r5) =>
                if 59 < ss then none
                else
                  match r5 with
                  | '.' :: r6 =>
                    match readFrac r6 with
                    | none => none
                    | some r7 => some (hh * 3600 + mm * 60 + ss, r7)
                  | _ => some (hh * 3600 + mm * 60 + ss, r5)
            | _ => some (hh * 3600 + mm * 60, r3)
      | _ => some (hh * 3600, r1)

/-- Model of `datetime.fromisoformat` (see the section comment): naive
timestamp in seconds, `none` when the string is rejected. -/
def fromIso (s : Str) : Option Int :=
  match read4 s with
  | none => none
  | some (y, r1) =>
    match r1 with
    | '-' :: r2 =>
      match read2 r2 with
      | none => none
      | some (m, r3) =>
        match r3 with
        | '-' :: r4 =>
          match read2 r4 with
          | none => none
          | some (d, r5) =>
            if y = 0 ∨ m = 0 ∨ 12 < m ∨ d = 0 ∨ daysInMonth y m < d then none
            else
              match r5 with
              | [] => some ((daysFromCivil y m d : Int) * 86400)
              | _ :: r6 =>
                match parseHMS r6 with
                | none => none
                | some (secs, r7) =>
                  if offsetOk r7 then
                    some ((daysFromCivil y m d : Int) * 86400 + (secs : Int))
                  else none
        | _ => none
    | _ => none

/-- `date_str.replace('Z', '+00:00')`. -/
def replaceZ : Str → Str
  | [] => []
  | c :: r =>
    if c = 'Z' then '+' :: '0' :: '0' :: ':' :: '0' :: '0' :: replaceZ r
    else c :: replaceZ r

/-- `parse_date` of `extract_and_assess.py`. -/
def parse_date (s : Str) : Option Int :=
  if s.isEmpty then none else fromIso (replaceZ s)

/-! ## The quality scorer (`assess_ticket`)

A `Ticket` is the record `extract_fields` produces: title as fetched,
description and acceptance criteria already passed through `strip_html`,
start date as the raw string.  `assess_ticket` additionally takes the current
time (`datetime.now()`) as an explicit naive timestamp in seconds. -/

structure Ticket where
  title : Str
  description : Str
  acceptance_criteria : Str
  start_date : Str
deriving DecidableEq, Repr

def desc_words (t : Ticket) : Nat := count_words t.description

def ac_words (t : Ticket) : Nat := count_words t.acceptance_criteria

def gradeA : Str := ( "A").toList
def gradeB : Str := ( "B").toList
def gradeC : Str := ( "C").toList
def gradeD : Str := ( "D").toList
def gradeF : Str := ( "F").toList

/-- The hard cap of lines 83–91: `F` when both fields are short, `D` when the
description alone is short, `C` when the acceptance criteria alone are. -/
def cap_grade (t : Ticket) : Option Str :=
  if ac_words t < 15 ∧ desc_words t < 10 then some gradeF
  else if desc_words t < 10 then some gradeD
  else if ac_words t < 15 then some gradeC
  else none

def action_words : List Str :=
  [( "create").toList, ( "update").toList, ( "delete").toList,
   ( "validate").toList, ( "display").toList, ( "send").toList,
   ( "receive").toList, ( "process").toList, ( "generate").toList,
   ( "implement").toList, ( "add").toList, ( "remove").toList,
   ( "modify").toList, ( "enable").toList, ( "configure").toList,
   ( "support").toList, ( "allow").toList, ( "provide").toList,
   ( "ensure").toList, ( "verify").toList]

/-- `(desc + " " + ac + " " + title).lower()`. -/
def combinedText (t : Ticket) : Str :=
  pyLower (t.description ++ ( " ").toList ++ t.acceptance_criteria
    ++ ( " ").toList ++ t.title)

/-- `sum(1 for w in action_words if w in combined)`: the number of vocabulary
words occurring as substrings — each vocabulary word counted at most once. -/
def action_count (c : Str) : Nat :=
  List.countP (fun w => containsSub w c) action_words

def actionPoints (n : Nat) : Nat :=
  if 4 ≤ n then 13 else if 2 ≤ n then 9 else if 1 ≤ n then 5 else 0

def roleWords : List Str :=
  [( "user").toList, ( "admin").toList, ( "staff").toList,
   ( "inspector").toList, ( "customer").toList, ( "agent").toList]

def actorPoints (c : Str) : Nat :=
  if containsSub ( "as a ").toList c || containsSub ( "as an ").toList c then 9
  else if roleWords.any (fun w => containsSub w c) then 6
  else 2

def improveWords : List Str :=
  [( "improve").toList, ( "enable").toList, ( "allow").toList,
   ( "support").toList, ( "ensure").toList]

def whyPoints (c : Str) : Nat :=
  if containsSub ( "so that").toList c || containsSub ( "in order to").toList c then 9
  else if containsSub ( "to ").toList c && improveWords.any (fun w => containsSub w c) then 6
  else 2

def detail_indicators : List Str :=
  [( "field").toList, ( "button").toList, ( "screen").toList,
   ( "page").toList, ( "api").toList, ( "database").toList,
   ( "table").toList, ( "column").toList, ( "report").toList,
   ( "email").toList, ( "notification").toList, ( "validation").toList,
   ( "rule").toList]

def detail_count (c : Str) : Nat :=
  List.countP (fun w => containsSub w c) detail_indicators

def detailPoints (n : Nat) : Nat :=
  if 4 ≤ n then 17 else if 2 ≤ n then 12 else if 1 ≤ n then 7 else 3

def doneWords : List Str :=
  [( "should").toList, ( "must").toList, ( "verify").toList,
   ( "confirm").toList, ( "ensure").toList]

def donePoints (ac : Str) (acw : Nat) : Nat :=
  if acw = 0 then 0
  else if containsSub ( "given").toList (pyLower ac)
      || containsSub ( "when").toList (pyLower ac)
      || containsSub ( "then").toList (pyLower ac) then 13
  else if doneWords.any (fun w => containsSub w (pyLower ac)) then 9
  else if 15 ≤ acw then 5
  else 2

def edgeWords : List Str :=
  [( "error").toList, ( "exception").toList, ( "invalid").toList,
   ( "boundary").toList, ( "edge case").toList, ( "fail").toList]

def edgePoints (c : Str) : Nat :=
  if edgeWords.any (fun w => containsSub w c) then 4 else 1

def qual_score (t : Ticket) : Nat :=
  actionPoints (action_count (combinedText t))
    + actorPoints (combinedText t)
    + whyPoints (combinedText t)
    + detailPoints (detail_count (combinedText t))
    + donePoints t.acceptance_criteria (ac_words t)
    + edgePoints (combinedText t)

def descSubstance (dw : Nat) : Nat :=
  if 75 ≤ dw then 12 else if 50 ≤ dw then 10 else if 25 ≤ dw then 7
  else if 10 ≤ dw then 4 else 0

def acSubstance (aw : Nat) : Nat :=
  if 75 ≤ aw then 13 else if 40 ≤ aw then 10 else if 20 ≤ aw then 7
  else if 15 ≤ aw then 4 else 0

def quant_score (t : Ticket) : Nat :=
  descSubstance (desc_words t) + acSubstance (ac_words t)

def total_score (t : Ticket) : Nat := qual_score t + quant_score t

def grade_from_total (n : Nat) : Str :=
  if 75 ≤ n then gradeA else if 55 ≤ n then gradeB else if 35 ≤ n then gradeC
  else if 20 ≤ n then gradeD else gradeF

/-- `grade_order = {'A': 5, 'B': 4, 'C': 3, 'D': 2, 'F': 1}`, with the
dict-`get` default 0. -/
def grade_order (g : Str) : Nat :=
  if g = gradeA then 5 else if g = gradeB then 4 else if g = gradeC then 3
  else if g = gradeD then 2 else if g = gradeF then 1 else 0

/-- The letter grade after the cap of lines 195–197: the cap replaces the
grade only when the grade ranks strictly above it. -/
def base_grade (t : Ticket) : Str :=
  let g := grade_from_total (total_score t)
  match cap_grade t with
  | some c => if grade_order c < grade_order g then c else g
  | none => g

def prelimMark : Str := ( "Prelim: ").toList

/-- Lines 199–203: when the start date parses and lies more than 7 whole days
(timedelta `.days`, floor division by 86400 seconds) after `now`, the grade
string gets the `Prelim: ` prefix. -/
def assess_grade (t : Ticket) (now : Int) : Str :=
  match parse_date t.start_date with
  | some s => if 7 < (s - now).fdiv 86400 then prelimMark ++ base_grade t else base_grade t
  | none => base_grade t

def rationale_parts (t : Ticket) : List Str :=
  (if desc_words t < 10 then [( "Missing description").toList]
   else if desc_words t < 25 then [( "Brief description").toList] else [])
  ++ (if ac_words t < 15 then [( "Missing AC").toList]
      else if ac_words t < 40 then [( "Limited AC").toList] else [])
  ++ (if action_count (combinedText t) < 2 then [( "Unclear actions").toList] else [])

def rationale_all (t : Ticket) : List Str :=
  if rationale_parts t = [] then
    [if 75 ≤ total_score t then ( "Well-defined with clear requirements").toList
     else if 55 ≤ total_score t then ( "Good detail with minor gaps").toList
     else ( "Needs more detail").toList]
  else rationale_parts t

def rationale (t : Ticket) : Str :=
  List.intercalate ( "; ").toList (rationale_all t)
    ++ ( " (Score: ").toList ++ natToStr (total_score t) ++ ( "/100)").toList

/-- `assess_ticket`: the (possibly `Prelim: `-prefixed) grade, the numeric
score and the rationale. -/
def assess_ticket (t : Ticket) (now : Int) : Str × Nat × Str :=
  (assess_grade t now, total_score t, rationale t)

/-- Whether a returned grade string carries the preliminary marker. -/
def hasPrelim (g : Str) : Bool := prelimMark.isPrefixOf g

/-! ## Dicts

CPython dicts preserve insertion order; assigning to a present key keeps its
position, assigning to an absent key appends.  They are modelled as
association lists with exactly that update, and `get` reads the first
occurrence (a dict built by these operations never holds a duplicate key). -/

def dictGet {κ α : Type} [DecidableEq κ] (k : κ) : List (κ × α) → Option α
  | [] => none
  | (k2, v) :: r => if k = k2 then some v else dictGet k r

def dictSet {κ α : Type} [DecidableEq κ] (k : κ) (v : α) : List (κ × α) → List (κ × α)
  | [] => [(k, v)]
  | (k2, v2) :: r => if k = k2 then (k, v) :: r else (k2, v2) :: dictSet k v r

/-! ## Work items and the cache merge (`save_to_cache.py`)

A work item is a dict; the core reads its `id` key (`VNull` when absent, as
`item.get('id')` yields `None`) and its `fields` sub-dict.  No other key of
the item dict is consulted or rewritten by the merge, so the model keeps
just these two. -/

structure WorkItem where
  id : Value
  fields : List (Str × Value)
deriving DecidableEq, Repr

def sysIdKey : Str := ( "System.Id").toList
def descKey : Str := ( "System.Description").toList
def acKey : Str := ( "Microsoft.VSTS.Common.AcceptanceCriteria").toList

/-- `item.get('id') or item.get('fields', {}).get('System.Id')`: the first
operand when truthy, otherwise the second as-is. -/
def effId (it : WorkItem) : Value :=
  if truthy it.id then it.id else (dictGet sysIdKey it.fields).getD VNull

/-- One key of the field merge (lines 61–67): replace when the stored value
is missing (`None`, which `.get` also yields for an absent key) or the empty
string, or when the incoming value is truthy and strictly longer under the
`len(str(·))` proxy. -/
def applyField (newv oldv : Value) : Value :=
  if oldv = VNull ∨ oldv = VStr [] then newv
  else if truthy newv ∧ strLen oldv < strLen newv then newv
  else oldv

def mergeStep (m : List (Str × Value)) (kv : Str × Value) : List (Str × Value) :=
  let oldv := (dictGet kv.1 m).getD VNull
  if oldv = VNull ∨ oldv = VStr [] then dictSet kv.1 kv.2 m
  else if truthy kv.2 ∧ strLen oldv < strLen kv.2 then dictSet kv.1 kv.2 m
  else m

/-- `merged_fields`: start from a copy of the old fields and fold the new
ones in, in their insertion order. -/
def mergeFields (old new : List (Str × Value)) : List (Str × Value) :=
  new.foldl mergeStep old

/-- `existing`: the cache's items indexed by effective id, skipping items
whose effective id is falsy (they are silently dropped from the rebuilt
`work_items` list). -/
def buildIndex (items : List WorkItem) : List (Value × WorkItem) :=
  items.foldl
    (fun E it => if truthy (effId it) then dictSet (effId it) it E else E) []

structure MergeSt where
  ex : List (Value × WorkItem)
  added : Nat
  updated : Nat
deriving DecidableEq, Repr

/-- One iteration of the `for item in new_items` loop of
`add_items_to_cache`: merge into the stored item of the same id (counting an
update only when some field actually changed — CPython compares the dicts,
which for a dict rebuilt by this very loop coincides with list equality), or
insert the item as-is. -/
def procItem (st : MergeSt) (it : WorkItem) : MergeSt :=
  let i := effId it
  if truthy i then
    match dictGet i st.ex with
    | some old =>
      let mf := mergeFields old.fields it.fields
      if mf = old.fields then st
      else { st with ex := dictSet i { old with fields := mf } st.ex,
                     updated := st.updated + 1 }
    | none => { st with ex := st.ex ++ [(i, it)], added := st.added + 1 }
  else st

/-- `add_items_to_cache(new_items, cache)`: the rebuilt `work_items` list and
the `(added, updated)` counters. -/
def add_items_to_cache (new_items : List WorkItem) (work_items : List WorkItem) :
    List WorkItem × Nat × Nat :=
  let st := new_items.foldl procItem ⟨buildIndex work_items, 0, 0⟩
  (st.ex.map Prod.snd, st.added, st.updated)

/-! ## Completeness (`check_cache.py`, `sync_cache.py`) -/

structure CompletenessInfo where
  has_description : Bool
  has_ac : Bool
  has_content : Bool
  desc_length : Nat
  ac_length : Nat
deriving DecidableEq, Repr

/-- `check_item_completeness` of `check_cache.py`: truthiness of the raw
`System.Description` / AcceptanceCriteria values (default `''`), lengths via
`len(str(·))` when truthy. -/
def check_item_completeness (it : WorkItem) : CompletenessInfo :=
  let desc := (dictGet descKey it.fields).getD (VStr [])
  let ac := (dictGet acKey it.fields).getD (VStr [])
  { has_description := truthy desc
    has_ac := truthy ac
    has_content := truthy desc || truthy ac
    desc_length := if truthy desc then strLen desc else 0
    ac_length := if truthy ac then strLen ac else 0 }

/-- `check_completeness` of `sync_cache.py`: `bool(desc) or bool(ac)` on the
raw field values. -/
def check_completeness (it : WorkItem) : Bool :=
  truthy ((dictGet descKey it.fields).getD (VStr []))
    || truthy ((dictGet acKey it.fields).getD (VStr []))

/-! ## The reconciler (`check_sync_status` of `sync_cache.py`)

Python `set`s are modelled as duplicate-free `List Int` built by
membership-guarded insertion, with difference/intersection/union as the
matching filters; the code's final `sorted(...)` only orders the output and
is not modelled — the theorems state the set contents via `List.toFinset`.
`int(item_id)` can raise on a malformed id, which aborts the whole call: the
model returns `none` in that case. -/

/-- Python `int(s)` on a string: optional sign, then digits (whitespace and
underscore tolerance of CPython is not needed by any claim). -/
def parseIntStr (s : Str) : Option Int :=
  match s with
  | '-' :: r => if r ≠ [] ∧ r.all isDigitCh then some (-(Int.ofNat (r.foldl (fun a c => 10 * a + digitVal c) 0))) else none
  | '+' :: r => if r ≠ [] ∧ r.all isDigitCh then some (Int.ofNat (r.foldl (fun a c => 10 * a + digitVal c) 0)) else none
  | r => if r ≠ [] ∧ r.all isDigitCh then some (Int.ofNat (r.foldl (fun a c => 10 * a + digitVal c) 0)) else none

/-- Python `int(v)`: ints as themselves, bools as 0/1, numeric strings
parsed; `int(None)` raises. -/
def pyToInt : Value → Option Int
  | VNum n => some n
  | VBool b => some (if b then 1 else 0)
  | VStr s => parseIntStr s
  | VNull => none

/-- Add an element to a set-as-list unless already present. -/
def insertAbsent (l : List Int) (n : Int) : List Int :=
  if n ∈ l then l else l ++ [n]

/-- `set(l)`. -/
def listToSet (l : List Int) : List Int := l.foldl insertAbsent []

/-- Set difference `a - b`. -/
def listDiff (a b : List Int) : List Int := a.filter (fun n => n ∉ b)

/-- Set intersection `a & b`. -/
def listInter (a b : List Int) : List Int := a.filter (fun n => n ∈ b)

/-- Set union `a | b`. -/
def listUnion (a b : List Int) : List Int := a ++ b.filter (fun n => n ∉ a)

def cachedIdsStep (acc : Option (List Int)) (it : WorkItem) : Option (List Int) :=
  match acc with
  | none => none
  | some s =>
    if truthy (effId it) then
      match pyToInt (effId it) with
      | some n => some (insertAbsent s n)
      | none => none
    else some s

/-- `get_cached_ids`: `{int(id) for each item with a truthy effective id}`,
`none` when some `int()` raises. -/
def get_cached_ids (items : List WorkItem) : Option (List Int) :=
  items.foldl cachedIdsStep (some [])

def incompleteStep (common : List Int) (acc : Option (List Int)) (it : WorkItem) :
    Option (List Int) :=
  match acc with
  | none => none
  | some l =>
    if truthy (effId it) then
      match pyToInt (effId it) with
      | some n =>
        if n ∈ common ∧ check_completeness it = false then some (l ++ [n]) else some l
      | none => none
    else some l

structure SyncStatus where
  missing : List Int
  removed : List Int
  incomplete : List Int
  needs_fetch : List Int
deriving DecidableEq, Repr

/-- `check_sync_status(query_ids)` against the cache's `work_items`. -/
def check_sync_status (query_ids : List Int) (items : List WorkItem) :
    Option SyncStatus :=
  match get_cached_ids items with
  | none => none
  | some cached =>
    let qset := listToSet query_ids
    match items.foldl (incompleteStep (listInter qset cached)) (some []) with
    | none => none
    | some inc =>
      some { missing := listDiff qset cached
             removed := listDiff cached qset
             incomplete := inc
             needs_fetch := listUnion (listDiff qset cached) (listToSet inc) }

/-- Well-formedness of the `existing` index: every entry is keyed by its
item's own truthy `id`, and no key repeats.  This is the state
`add_items_to_cache` maintains for caches of id-carrying items. -/
def IndexOk (E : List (Value × WorkItem)) : Prop :=
  (∀ kv ∈ E, kv.1 = kv.2.id ∧ truthy kv.2.id = true) ∧
  (E.map Prod.fst).Nodup

/-! ## Concrete fixtures used by witnesses and counterexamples -/

/-- A markup-only description value: truthy, but stripping leaves nothing. -/
def divMarkup : Value := VStr ( "<div></div>").toList

def c10Item : WorkItem := ⟨VNum 7, [(descKey, divMarkup)]⟩

def c10ItemAC : WorkItem := ⟨VNum 8, [(acKey, divMarkup)]⟩

def c2OldW : List (Str × Value) := [(descKey, VStr ( "a").toList)]

def c2NewW : List (Str × Value) := [(descKey, VStr ( "abc").toList)]

def c3Cache : List WorkItem := [⟨VNum 1, [(descKey, VStr [])]⟩]

def c3Batch : List WorkItem :=
  [⟨VNum 1, [(descKey, VNull)]⟩, ⟨VNum 1, [(descKey, VStr [])]⟩]

def c3CacheW : List WorkItem := [⟨VNum 1, [(descKey, VStr ( "a").toList)]⟩]

def c3BatchW : List WorkItem :=
  [⟨VNum 1, [(descKey, VStr ( "abc").toList)]⟩,
   ⟨VNum 2, [(acKey, VStr ( "x").toList)]⟩]

def c4Items : List WorkItem :=
  [⟨VNum 1, []⟩, ⟨VNum 2, [(descKey, VStr ( "d").toList)]⟩]

def c4Qids : List Int := [1, 3]

def c4Status : SyncStatus :=
  { missing := [3], removed := [2], incomplete := [1], needs_fetch := [3, 1] }

/-! ## Helper lemmas about the grade computation -/

theorem grade_from_total_cases (n : Nat) :
    grade_from_total n = gradeA ∨ grade_from_total n = gradeB ∨
    grade_from_total n = gradeC ∨ grade_from_total n = gradeD ∨
    grade_from_total n = gradeF := by
  unfold grade_from_total
  split_ifs <;> tauto

theorem cap_grade_both (t : Ticket) (h1 : ac_words t < 15) (h2 : desc_words t < 10) :
    cap_grade t = some gradeF := by
  simp [cap_grade, h1, h2]

theorem cap_grade_desc (t : Ticket) (h2 : desc_words t < 10) (h3 : 15 ≤ ac_words t) :
    cap_grade t = some gradeD := by
  have h1 : ¬(ac_words t < 15 ∧ desc_words t < 10) := by omega
  have h1b : ¬(ac_words t < 15) := by omega
  simp only [cap_grade, if_neg h1, if_pos h2]

theorem cap_grade_ac (t : Ticket) (h1 : ac_words t < 15) (h3 : 10 ≤ desc_words t) :
    cap_grade t = some gradeC := by
  have hb : ¬(ac_words t < 15 ∧ desc_words t < 10) := by omega
  have hd : ¬(desc_words t < 10) := by omega
  simp only [cap_grade, if_neg hb, if_neg hd, if_pos h1]

theorem base_grade_of_cap (t : Ticket) (c : Str) (h : cap_grade t = some c) :
    base_grade t =
      if grade_order c < grade_order (grade_from_total (total_score t)) then c
      else grade_from_total (total_score t) := by
  unfold base_grade
  rw [h]

theorem base_grade_of_none (t : Ticket) (h : cap_grade t = none) :
    base_grade t = grade_from_total (total_score t) := by
  unfold base_grade
  rw [h]

/-- The grade `assess_ticket` returns is the letter grade, possibly behind
the `Prelim: ` prefix — nothing else. -/
theorem assess_grade_cases (t : Ticket) (now : Int) :
    assess_grade t now = base_grade t ∨
    assess_grade t now = prelimMark ++ base_grade t := by
  unfold assess_grade
  cases parse_date t.start_date with
  | none => exact Or.inl rfl
  | some s =>
    simp only []
    split_ifs
    · exact Or.inr rfl
    · exact Or.inl rfl

/-! ## C1: hard caps -/

/-- C1.  Hard-cap correctness of the scorer, stated about the letter grade
(the grade the code computes before the advisory `Prelim: ` prefix):
if `ac_words < 15` and `desc_words < 10` the letter grade is `F`;
if `desc_words < 10` and `ac_words ≥ 15` the grade never ranks above `D`;
if `ac_words < 15` and `desc_words ≥ 10` the grade never ranks above `C`;
and the cap only ever lowers the grade computed from the total score
(ordering `A > B > C > D > F` via `grade_order`), never raises it.  The last
conjunct ties this to the returned grade: whatever the evaluation time, the
output grade is the letter grade, at most behind the advisory prefix. -/
theorem c1_hard_caps (t : Ticket) :
    ((ac_words t < 15 ∧ desc_words t < 10) → base_grade t = gradeF) ∧
    ((desc_words t < 10 ∧ 15 ≤ ac_words t) →
      grade_order (base_grade t) ≤ grade_order gradeD) ∧
    ((ac_words t < 15 ∧ 10 ≤ desc_words t) →
      grade_order (base_grade t) ≤ grade_order gradeC) ∧
    grade_order (base_grade t) ≤ grade_order (grade_from_total (total_score t)) ∧
    ∀ now : Int, (assess_ticket t now).1 = base_grade t ∨
      (assess_ticket t now).1 = prelimMark ++ base_grade t := by
  refine ⟨fun h => ?_, fun h => ?_, fun h => ?_, ?_, fun now => assess_grade_cases t now⟩
  · rw [base_grade_of_cap t gradeF (cap_grade_both t h.1 h.2)]
    rcases grade_from_total_cases (total_score t) with hg | hg | hg | hg | hg <;>
      rw [hg] <;> decide
  · rw [base_grade_of_cap t gradeD (cap_grade_desc t h.1 h.2)]
    rcases grade_from_total_cases (total_score t) with hg | hg | hg | hg | hg <;>
      rw [hg] <;> decide
  · rw [base_grade_of_cap t gradeC (cap_grade_ac t h.1 h.2)]
    rcases grade_from_total_cases (total_score t) with hg | hg | hg | hg | hg <;>
      rw [hg] <;> decide
  · unfold base_grade
    cases h : cap_grade t with
    | none => simp
    | some c =>
      simp only []
      split_ifs with hlt
      · omega
      · omega

/-- C1 witness: at the empty record both counts are 0, so the theorem's first
cap fires and the letter grade evaluates to `F`. -/
theorem c1_hard_caps_witness :
    base_grade ⟨[], [], [], []⟩ = gradeF :=
  (c1_hard_caps ⟨[], [], [], []⟩).1 (by decide)

/-! ## C5: the empty-record example -/

/-- C5 counterexample.  On the record with empty title, description and
acceptance criteria, the scorer's numeric score is 8 — not 0 — and the
rationale does not contain the literal fraction `Score: 0/100`; the claim's
asserted output is therefore false at this input. -/
theorem c5_counterexample :
    (assess_ticket ⟨[], [], [], []⟩ 0).2.1 = 8 ∧
    containsSub ( "Score: 0/100").toList (assess_ticket ⟨[], [], [], []⟩ 0).2.2 = false := by
  decide

/-- C5 as amended.  The empty record grades `F`, but with numeric score 8
(the qualitative else-branches award 2+2+3+1 baseline points), and the
rationale reads `Missing description; Missing AC; Unclear actions
(Score: 8/100)` — it flags both fields as missing and carries the literal
fraction `Score: 8/100`. -/
theorem c5_empty_record :
    assess_ticket ⟨[], [], [], []⟩ 0 =
      (gradeF, 8,
        ( "Missing description; Missing AC; Unclear actions (Score: 8/100)").toList) ∧
    containsSub ( "Score: 8/100").toList (assess_ticket ⟨[], [], [], []⟩ 0).2.2 = true := by
  decide

/-! ## C6: the action signal counts distinct vocabulary words -/

/-- C6 counterexample.  The record whose description is
`create create create create` — four occurrences of the single action verb
`create`, no other vocabulary word — has `action_count = 1`, so the action
signal is not the 13 points the claim asserts for four occurrences. -/
theorem c6_counterexample :
    action_count (combinedText ⟨[], ( "create create create create").toList, [], []⟩) = 1 ∧
    actionPoints
      (action_count (combinedText ⟨[], ( "create create create create").toList, [], []⟩)) ≠ 13 := by
  decide

/-- C6 as amended.  The action signal is computed from the number of
*distinct* vocabulary words occurring as substrings of the lower-cased
combined text (each vocabulary word counted at most once, so the count never
exceeds the 20-word vocabulary, however many occurrences the text holds),
with the same 13/9/5/0 banding; a text containing four occurrences of one
action verb and no other vocabulary word therefore counts 1 and scores 5
points. -/
theorem c6_action_signal :
    action_count (combinedText ⟨[], ( "create create create create").toList, [], []⟩) = 1 ∧
    actionPoints
      (action_count (combinedText ⟨[], ( "create create create create").toList, [], []⟩)) = 5 ∧
    ∀ c : Str, action_count c ≤ 20 := by
  refine ⟨by decide, by decide, fun c => ?_⟩
  have h := List.countP_le_length (l := action_words) (p := fun w => containsSub w c)
  simpa [action_words] using h

/-! ## C8: the HTML-stripping transform does not collapse whitespace -/

/-- C8.  `strip_html` replaces tag spans with single spaces and trims, but it
does *not* collapse whitespace runs: the second substitution is written
`re.sub(r'\\s+', ' ', ...)`, whose pattern matches a literal backslash
followed by letters `s`, not whitespace.  On `<p>a</p> <p>b</p>` the output
is `a   b`, which contains adjacent whitespace characters — the claim's
"never two adjacent whitespace characters" fails, while the spec records the
clear intent to collapse runs (the code is a slip). -/
theorem c8_strip_html_keeps_runs :
    strip_html (VStr ( "<p>a</p> <p>b</p>").toList) = ( "a   b").toList ∧
    containsSub ( "  ").toList (strip_html (VStr ( "<p>a</p> <p>b</p>").toList)) = true := by
  decide

/-! ## C7 and C9: time dependence of the grade -/

theorem isPrefixOf_append_self (l r : Str) : l.isPrefixOf (l ++ r) = true := by
  induction l with
  | nil => simp [List.isPrefixOf]
  | cons c l ih => simp [List.isPrefixOf, ih]

theorem cap_grade_cases (t : Ticket) (c : Str) (h : cap_grade t = some c) :
    c = gradeF ∨ c = gradeD ∨ c = gradeC := by
  unfold cap_grade at h
  split_ifs at h <;> simp_all

theorem base_grade_cases (t : Ticket) :
    base_grade t = gradeA ∨ base_grade t = gradeB ∨ base_grade t = gradeC ∨
    base_grade t = gradeD ∨ base_grade t = gradeF := by
  unfold base_grade
  cases h : cap_grade t with
  | none => exact grade_from_total_cases (total_score t)
  | some c =>
    simp only []
    split_ifs
    · rcases cap_grade_cases t c h with hc | hc | hc <;> rw [hc] <;> tauto
    · exact grade_from_total_cases (total_score t)

theorem hasPrelim_base_grade (t : Ticket) : hasPrelim (base_grade t) = false := by
  rcases base_grade_cases t with h | h | h | h | h <;> rw [hasPrelim, h] <;> decide

/-- C7 counterexample.  The scorer is not a function of the record alone: it
reads the current time.  The same record (start date `2099-06-01T00:00:00Z`)
evaluated at two different times — 8 days before its start date, and at its
start date — returns two different triples (`Prelim: F` versus `F`). -/
theorem c7_counterexample :
    assess_ticket ⟨[], [], [], ( "2099-06-01T00:00:00Z").toList⟩ (66245990400 - 8 * 86400) ≠
    assess_ticket ⟨[], [], [], ( "2099-06-01T00:00:00Z").toList⟩ 66245990400 := by
  decide

/-- C7 as amended.  The scorer is a deterministic pure function of the record
*and the current time*; only the `Prelim: ` marker on the grade depends on
the time: the numeric score and the rationale are identical across any two
evaluation times, and the grade is always the time-independent letter grade,
with or without the marker. -/
theorem c7_score_rationale_time_invariant (t : Ticket) (now1 now2 : Int) :
    (assess_ticket t now1).2 = (assess_ticket t now2).2 ∧
    ((assess_ticket t now1).1 = base_grade t ∨
      (assess_ticket t now1).1 = prelimMark ++ base_grade t) :=
  ⟨rfl, assess_grade_cases t now1⟩

/-- C9 counterexample.  A record whose parsed start date lies 7 days and one
hour — strictly more than 7 days — after the current time gets *no*
preliminary prefix: the code tests `timedelta.days > 7`, a floor, so only
differences of at least 8 whole days are marked. -/
theorem c9_counterexample :
    parse_date ( "2099-06-01T00:00:00Z").toList = some 66245990400 ∧
    (7 : Int) * 86400 < 66245990400 - (66245990400 - 7 * 86400 - 3600) ∧
    hasPrelim ((assess_ticket ⟨[], [], [], ( "2099-06-01T00:00:00Z").toList⟩
      (66245990400 - 7 * 86400 - 3600)).1) = false := by
  decide

/-- C9 as amended.  The numeric score is unaffected by the marker, and the
grade carries the `Prelim: ` prefix exactly when the start date parses and
the floor of the day difference (timedelta `.days`) exceeds 7 — i.e. the
start date is at least 8 whole days in the future; absent or unparsable
dates, and differences under 8 whole days, get no prefix. -/
theorem c9_prelim_marker (t : Ticket) (now : Int) :
    (assess_ticket t now).2.1 = total_score t ∧
    (hasPrelim (assess_ticket t now).1 = true ↔
      ∃ s, parse_date t.start_date = some s ∧ 7 < (s - now).fdiv 86400) := by
  refine ⟨rfl, ?_⟩
  show hasPrelim (assess_grade t now) = true ↔ _
  unfold assess_grade
  cases hp : parse_date t.start_date with
  | none => simp [hasPrelim_base_grade t]
  | some s =>
    simp only []
    split_ifs with hday
    · simp only [hasPrelim, isPrefixOf_append_self]
      exact ⟨fun _ => ⟨s, rfl, hday⟩, fun _ => trivial⟩
    · simp only [hasPrelim_base_grade t]
      constructor
      · intro h
        exact absurd h (by simp [hasPrelim_base_grade t] at *)
      · rintro ⟨s2, hs2, h2⟩
        cases hs2
        exact absurd h2 hday

/-! ## C10: completeness tests raw truthiness, the scorer strips first -/

theorem desc_cap_le (t : Ticket) (h : desc_words t < 10) :
    grade_order (base_grade t) ≤ grade_order gradeD := by
  by_cases hac : ac_words t < 15
  · rw [base_grade_of_cap t gradeF (cap_grade_both t hac h)]
    rcases grade_from_total_cases (total_score t) with hg | hg | hg | hg | hg <;>
      rw [hg] <;> decide
  · rw [base_grade_of_cap t gradeD (cap_grade_desc t h (by omega))]
    rcases grade_from_total_cases (total_score t) with hg | hg | hg | hg | hg <;>
      rw [hg] <;> decide

/-- `check_completeness` of `sync_cache.py` and the `has_content` flag of
`check_cache.py` compute the same truthiness disjunction. -/
theorem check_completeness_eq_has_content (it : WorkItem) :
    check_completeness it = (check_item_completeness it).has_content := rfl

/-- Short acceptance criteria cap the grade at `C` no matter the
description: the cap is `C` when the description is long enough and `F`
otherwise, both ranking at or below `C`. -/
theorem ac_cap_le (t : Ticket) (h : ac_words t < 15) :
    grade_order (base_grade t) ≤ grade_order gradeC := by
  by_cases hd : desc_words t < 10
  · rw [base_grade_of_cap t gradeF (cap_grade_both t h hd)]
    rcases grade_from_total_cases (total_score t) with hg | hg | hg | hg | hg <;>
      rw [hg] <;> decide
  · rw [base_grade_of_cap t gradeC (cap_grade_ac t h (by omega))]
    rcases grade_from_total_cases (total_score t) with hg | hg | hg | hg | hg <;>
      rw [hg] <;> decide

/-- A record the reconciler's completeness predicate reports complete is
never appended by the incomplete-loop step: the step keeps the list as-is
(or aborts on a malformed id). -/
theorem incompleteStep_of_complete (it : WorkItem)
    (hcomp : check_completeness it = true) (common acc : List Int) :
    incompleteStep common (some acc) it = some acc ∨
    incompleteStep common (some acc) it = none := by
  unfold incompleteStep
  by_cases htr : truthy (effId it) = true
  · simp only [htr, if_true]
    cases pyToInt (effId it) with
    | some n =>
      show (if n ∈ common ∧ check_completeness it = false
          then some (acc ++ [n]) else some acc) = some acc ∨
        (if n ∈ common ∧ check_completeness it = false
          then some (acc ++ [n]) else some acc) = none
      rw [if_neg (by rw [hcomp]; simp)]
      exact Or.inl rfl
    | none => exact Or.inr rfl
  · simp only [htr]
    exact Or.inl rfl

/-- C10.  For any record one of whose raw free-text values — description or
acceptance criteria — is truthy but strips to zero words (e.g. consists only
of HTML markup), the completeness checker of `check_cache.py` reports
`has_content = true` and the reconciler's completeness predicate also
reports the item complete, so the reconciler's incomplete-loop step never
appends the record's id (it leaves the list as-is or aborts on a malformed
id); meanwhile the scorer, fed the stripped text, sees zero words in that
field and applies the corresponding cap: a markup-only description caps the
letter grade at `D` (`F` when the criteria are also short), markup-only
acceptance criteria cap it at `C` (`D`/`F` when the description is also
short) — never above. -/
theorem c10_markup_only_fields (it : WorkItem) (dv av : Value)
    (title startd dtext atext : Str) :
    ((dictGet descKey it.fields = some dv) → truthy dv = true →
      count_words (strip_html dv) = 0 →
      (check_item_completeness it).has_content = true ∧
      check_completeness it = true ∧
      (∀ (common acc : List Int), incompleteStep common (some acc) it = some acc ∨
        incompleteStep common (some acc) it = none) ∧
      grade_order (base_grade ⟨title, strip_html dv, atext, startd⟩) ≤
        grade_order gradeD) ∧
    ((dictGet acKey it.fields = some av) → truthy av = true →
      count_words (strip_html av) = 0 →
      (check_item_completeness it).has_content = true ∧
      check_completeness it = true ∧
      (∀ (common acc : List Int), incompleteStep common (some acc) it = some acc ∨
        incompleteStep common (some acc) it = none) ∧
      grade_order (base_grade ⟨title, dtext, strip_html av, startd⟩) ≤
        grade_order gradeC) := by
  constructor
  · intro h1 h2 h3
    have hcomp : check_completeness it = true := by
      simp [check_completeness, h1, h2]
    refine ⟨?_, hcomp, incompleteStep_of_complete it hcomp, ?_⟩
    · simp [check_item_completeness, h1, h2]
    · exact desc_cap_le _ (by simp [desc_words, h3])
  · intro h1 h2 h3
    have hcomp : check_completeness it = true := by
      simp [check_completeness, h1, h2]
    refine ⟨?_, hcomp, incompleteStep_of_complete it hcomp, ?_⟩
    · simp [check_item_completeness, h1, h2]
    · exact ac_cap_le _ (by simp [ac_words, h3])

/-- C10 witness: the record whose description is `<div></div>` is complete
for the checkers, skipped by the incomplete-loop step, and capped at `D`;
the record whose acceptance criteria are `<div></div>` is likewise complete
and capped at `C`. -/
theorem c10_markup_only_fields_witness :
    ((check_item_completeness c10Item).has_content = true ∧
      check_completeness c10Item = true ∧
      (incompleteStep [7] (some []) c10Item = some [] ∨
        incompleteStep [7] (some []) c10Item = none) ∧
      grade_order (base_grade ⟨[], strip_html divMarkup, [], []⟩) ≤
        grade_order gradeD) ∧
    ((check_item_completeness c10ItemAC).has_content = true ∧
      check_completeness c10ItemAC = true ∧
      (incompleteStep [8] (some []) c10ItemAC = some [] ∨
        incompleteStep [8] (some []) c10ItemAC = none) ∧
      grade_order (base_grade ⟨[], [], strip_html divMarkup, []⟩) ≤
        grade_order gradeC) := by
  have hd := (c10_markup_only_fields c10Item divMarkup divMarkup [] [] [] []).1
    (by decide) (by decide) (by decide)
  have ha := (c10_markup_only_fields c10ItemAC divMarkup divMarkup [] [] [] []).2
    (by decide) (by decide) (by decide)
  exact ⟨⟨hd.1, hd.2.1, hd.2.2.1 [7] [], hd.2.2.2⟩,
    ⟨ha.1, ha.2.1, ha.2.2.1 [8] [], ha.2.2.2⟩⟩

/-! ## Dict and merge lemmas -/

theorem dictGet_dictSet_same {κ α : Type} [DecidableEq κ] (k : κ) (v : α)
    (m : List (κ × α)) : dictGet k (dictSet k v m) = some v := by
  induction m with
  | nil => simp [dictGet, dictSet]
  | cons kv r ih =>
    by_cases h : k = kv.1
    · simp [dictSet, h, dictGet]
    · simp [dictSet, h, dictGet, ih]

theorem dictGet_dictSet_ne {κ α : Type} [DecidableEq κ] (k k2 : κ) (v : α)
    (m : List (κ × α)) (h : k2 ≠ k) :
    dictGet k2 (dictSet k v m) = dictGet k2 m := by
  induction m with
  | nil => simp [dictGet, dictSet, h]
  | cons kv r ih =>
    by_cases hk : k = kv.1
    · subst hk
      simp [dictSet, dictGet, h, ih]
    · simp only [dictSet, if_neg hk]
      by_cases h2 : k2 = kv.1
      · simp [dictGet, h2]
      · simp [dictGet, h2, ih]

theorem dictSet_of_get_same {κ α : Type} [DecidableEq κ] (k : κ) (v : α)
    (m : List (κ × α)) (h : dictGet k m = some v) : dictSet k v m = m := by
  induction m with
  | nil => simp [dictGet] at h
  | cons kv r ih =>
    by_cases hk : k = kv.1
    · simp only [dictGet, if_pos hk] at h
      obtain ⟨k1, v1⟩ := kv
      simp only at hk
      simp only [dictSet, if_pos hk]
      cases h
      rw [hk]
    · simp only [dictGet, if_neg hk] at h
      simp [dictSet, hk, ih h]

theorem truthy_ne_null_empty (x : Value) (h : truthy x = true) :
    x ≠ VNull ∧ x ≠ VStr [] := by
  cases x <;> simp_all [truthy]

theorem mergeStep_get_same (m : List (Str × Value)) (k : Str) (x : Value) :
    dictGet k (mergeStep m (k, x)) =
      some (applyField x ((dictGet k m).getD VNull)) := by
  unfold mergeStep applyField
  simp only []
  split_ifs with h1 h2
  · exact dictGet_dictSet_same k x m
  · exact dictGet_dictSet_same k x m
  · cases hg : dictGet k m with
    | none => simp [hg] at h1
    | some u => simp [hg]

theorem mergeStep_get_ne (m : List (Str × Value)) (k k2 : Str) (x : Value)
    (h : k2 ≠ k) :
    dictGet k2 (mergeStep m (k, x)) = dictGet k2 m := by
  unfold mergeStep
  simp only []
  split_ifs <;> first | exact dictGet_dictSet_ne k k2 x m h | rfl

/-- A key never loses its entry, its length never drops below the original
non-null value's, and a truthy value never becomes falsy, across one merge
step. -/
theorem applyField_preserves (x u : Value) (h : ¬(u = VNull ∨ u = VStr [])) :
    ¬(applyField x u = VNull ∨ applyField x u = VStr []) ∧
    strLen u ≤ strLen (applyField x u) ∧
    (truthy u = true → truthy (applyField x u) = true) := by
  unfold applyField
  rw [if_neg h]
  split_ifs with h2
  · exact ⟨by
      have := truthy_ne_null_empty x h2.1
      tauto, le_of_lt h2.2, fun _ => h2.1⟩
  · exact ⟨h, le_refl _, fun hu => hu⟩

theorem mergeFields_get_isSome (new : List (Str × Value)) :
    ∀ (old : List (Str × Value)) (k : Str) (v' : Value),
    dictGet k old = some v' →
    ∃ v2, dictGet k (mergeFields old new) = some v2 := by
  induction new with
  | nil => exact fun old k v' h => ⟨v', h⟩
  | cons kx new ih =>
    intro old k v' h
    show ∃ v2, dictGet k (mergeFields (mergeStep old kx) new) = some v2
    obtain ⟨k2, x⟩ := kx
    by_cases hk : k = k2
    · subst hk
      exact ih _ k (applyField x v') (by rw [mergeStep_get_same, h]; rfl)
    · exact ih _ k v' (by rw [mergeStep_get_ne old k2 k x hk]; exact h)

theorem mergeFields_get_grows (new : List (Str × Value)) :
    ∀ (old : List (Str × Value)) (k : Str) (v' : Value),
    dictGet k old = some v' →
    ¬(v' = VNull ∨ v' = VStr []) →
    ∃ v2, dictGet k (mergeFields old new) = some v2 ∧ strLen v' ≤ strLen v2 ∧
      (truthy v' = true → truthy v2 = true) ∧ ¬(v2 = VNull ∨ v2 = VStr []) := by
  induction new with
  | nil => exact fun old k v' h hn => ⟨v', h, le_refl _, fun hv => hv, hn⟩
  | cons kx new ih =>
    intro old k v' h hn
    show ∃ v2, dictGet k (mergeFields (mergeStep old kx) new) = some v2 ∧ _
    obtain ⟨k2, x⟩ := kx
    by_cases hk : k = k2
    · subst hk
      have hget : dictGet k (mergeStep old (k, x)) = some (applyField x v') := by
        rw [mergeStep_get_same, h]
        rfl
      have hp := applyField_preserves x v' hn
      obtain ⟨v2, h2, hl2, ht2, hn2⟩ := ih _ k (applyField x v') hget hp.1
      exact ⟨v2, h2, le_trans hp.2.1 hl2, fun hv => ht2 (hp.2.2 hv), hn2⟩
    · exact ih _ k v' (by rw [mergeStep_get_ne old k2 k x hk]; exact h) hn

/-! ## C2: the merge never shrinks a non-null field -/

/-- C2 counterexample.  A stored field holding `None` (present in the stored
mapping; `len(str(None)) = 4`) is replaced by an incoming empty string: the
merged value's string-proxy length 0 is strictly below the stored 4, so the
claimed inequality `len(merged[f]) >= len(stored[f])` fails. -/
theorem c2_counterexample :
    mergeFields [(descKey, VNull)] [(descKey, VStr [])] = [(descKey, VStr [])] ∧
    strLen ((dictGet descKey (mergeFields [(descKey, VNull)] [(descKey, VStr [])])).getD VNull)
      < strLen ((dictGet descKey [(descKey, VNull)]).getD VNull) := by
  decide

/-- C2 as amended.  For every field present in the stored mapping with a
value other than `None`, the merged mapping still has the field, its
string-proxy length is at least the stored one, and a truthy (non-empty)
stored value stays truthy — it is never deleted or replaced by an empty
value.  (A stored `None` may be replaced by anything, including a shorter
value: the merge treats `None` like an absent field.) -/
theorem c2_merge_never_shrinks (old new : List (Str × Value)) (k : Str) (v : Value)
    (h : dictGet k old = some v) (hv : v ≠ VNull) :
    ∃ v2, dictGet k (mergeFields old new) = some v2 ∧
      strLen v ≤ strLen v2 ∧ (truthy v = true → truthy v2 = true) := by
  by_cases he : v = VStr []
  · subst he
    obtain ⟨v2, h2⟩ := mergeFields_get_isSome new old k (VStr []) h
    exact ⟨v2, h2, by simp [strLen, strProxy], by simp [truthy]⟩
  · obtain ⟨v2, h2, hl, ht, _⟩ :=
      mergeFields_get_grows new old k v h (by tauto)
    exact ⟨v2, h2, hl, ht⟩

/-- C2 witness: a one-character stored description merged with a
three-character incoming one keeps the field, does not shrink it, and stays
truthy. -/
theorem c2_merge_never_shrinks_witness :
    ∃ v2, dictGet descKey (mergeFields c2OldW c2NewW) = some v2 ∧
      strLen (VStr ( "a").toList) ≤ strLen v2 ∧
      (truthy (VStr ( "a").toList) = true → truthy v2 = true) :=
  c2_merge_never_shrinks c2OldW c2NewW descKey (VStr ( "a").toList)
    (by decide) (by decide)

/-! ## C4: reconciler set arithmetic -/

theorem mem_insertAbsent (l : List Int) (n m : Int) :
    m ∈ insertAbsent l n ↔ m ∈ l ∨ m = n := by
  by_cases h : n ∈ l
  · simp only [insertAbsent, if_pos h]
    constructor
    · exact Or.inl
    · rintro (hm | hm)
      · exact hm
      · exact hm ▸ h
  · simp [insertAbsent, if_neg h]

theorem mem_listToSet_aux (l : List Int) :
    ∀ (acc : List Int) (m : Int), m ∈ l.foldl insertAbsent acc ↔ m ∈ acc ∨ m ∈ l := by
  induction l with
  | nil => simp
  | cons n l ih =>
    intro acc m
    rw [List.foldl_cons, ih, mem_insertAbsent]
    simp only [List.mem_cons]
    tauto

theorem mem_listToSet (l : List Int) (m : Int) : m ∈ listToSet l ↔ m ∈ l := by
  rw [listToSet, mem_listToSet_aux]
  simp

theorem incompleteFold_none (common : List Int) (items : List WorkItem) :
    items.foldl (incompleteStep common) none = none := by
  induction items with
  | nil => rfl
  | cons it items ih => exact ih

theorem incompleteFold_mem (common : List Int) :
    ∀ (items : List WorkItem) (l0 inc : List Int),
    items.foldl (incompleteStep common) (some l0) = some inc →
    ∀ n : Int, n ∈ inc ↔ n ∈ l0 ∨ (n ∈ common ∧ ∃ it ∈ items,
      truthy (effId it) = true ∧ pyToInt (effId it) = some n ∧
      check_completeness it = false) := by
  intro items
  induction items with
  | nil =>
    intro l0 inc h n
    cases h
    simp
  | cons it items ih =>
    intro l0 inc h n
    rw [List.foldl_cons] at h
    by_cases htr : truthy (effId it) = true
    · cases hpy : pyToInt (effId it) with
      | none =>
        rw [show incompleteStep common (some l0) it = none by
              simp [incompleteStep, htr, hpy],
            incompleteFold_none] at h
        cases h
      | some n0 =>
        by_cases hc : n0 ∈ common ∧ check_completeness it = false
        · rw [show incompleteStep common (some l0) it = some (l0 ++ [n0]) by
                simp [incompleteStep, htr, hpy, hc]] at h
          rw [ih _ _ h n]
          constructor
          · rintro (hmem | hrest)
            · rw [List.mem_append, List.mem_singleton] at hmem
              rcases hmem with hmem | hmem
              · exact Or.inl hmem
              · subst hmem
                exact Or.inr ⟨hc.1, it, List.mem_cons_self it items, htr, hpy, hc.2⟩
            · exact Or.inr ⟨hrest.1, by
                obtain ⟨it2, hm, hp⟩ := hrest.2
                exact ⟨it2, List.mem_cons_of_mem it hm, hp⟩⟩
          · rintro (hmem | ⟨hcm, it2, hm, hp1, hp2, hp3⟩)
            · exact Or.inl (by rw [List.mem_append]; exact Or.inl hmem)
            · rcases List.mem_cons.mp hm with hm | hm
              · subst hm
                rw [hpy] at hp2
                cases hp2
                exact Or.inl (by rw [List.mem_append, List.mem_singleton]; exact Or.inr rfl)
              · exact Or.inr ⟨hcm, it2, hm, hp1, hp2, hp3⟩
        · rw [show incompleteStep common (some l0) it = some l0 by
                simp only [incompleteStep, htr, if_true, hpy]
                rw [if_neg hc]] at h
          rw [ih _ _ h n]
          constructor
          · rintro (hmem | hrest)
            · exact Or.inl hmem
            · exact Or.inr ⟨hrest.1, by
                obtain ⟨it2, hm, hp⟩ := hrest.2
                exact ⟨it2, List.mem_cons_of_mem it hm, hp⟩⟩
          · rintro (hmem | ⟨hcm, it2, hm, hp1, hp2, hp3⟩)
            · exact Or.inl hmem
            · rcases List.mem_cons.mp hm with hm | hm
              · subst hm
                rw [hpy] at hp2
                cases hp2
                exact absurd ⟨hcm, hp3⟩ hc
              · exact Or.inr ⟨hcm, it2, hm, hp1, hp2, hp3⟩
    · rw [show incompleteStep common (some l0) it = some l0 by
            simp [incompleteStep, htr]] at h
      rw [ih _ _ h n]
      constructor
      · rintro (hmem | hrest)
        · exact Or.inl hmem
        · exact Or.inr ⟨hrest.1, by
            obtain ⟨it2, hm, hp⟩ := hrest.2
            exact ⟨it2, List.mem_cons_of_mem it hm, hp⟩⟩
      · rintro (hmem | ⟨hcm, it2, hm, hp1, hp2, hp3⟩)
        · exact Or.inl hmem
        · rcases List.mem_cons.mp hm with hm | hm
          · subst hm
            exact absurd hp1 htr
          · exact Or.inr ⟨hcm, it2, hm, hp1, hp2, hp3⟩

/-- C4.  Whenever `check_sync_status` returns (no `int()` conversion raised),
its output is exactly the claimed set arithmetic: `missing` = expected −
cached, `extra` (the code's `removed_ids`) = cached − expected,
`needs_fetch` = missing ∪ incomplete, and the `incomplete` list holds
precisely the ids of `cached ∩ expected` whose completeness predicate
(`check_completeness`, i.e. `has_content`) is false. -/
theorem c4_reconciler_sets (qids : List Int) (items : List WorkItem)
    (cached : List Int) (st : SyncStatus)
    (hc : get_cached_ids items = some cached)
    (h : check_sync_status qids items = some st) :
    st.missing.toFinset = qids.toFinset \ cached.toFinset ∧
    st.removed.toFinset = cached.toFinset \ qids.toFinset ∧
    st.needs_fetch.toFinset = st.missing.toFinset ∪ st.incomplete.toFinset ∧
    (∀ n : Int, n ∈ st.incomplete ↔ n ∈ qids.toFinset ∩ cached.toFinset ∧
      ∃ it ∈ items, truthy (effId it) = true ∧ pyToInt (effId it) = some n ∧
        check_completeness it = false) := by
  unfold check_sync_status at h
  rw [hc] at h
  simp only [] at h
  cases hf : items.foldl (incompleteStep (listInter (listToSet qids) cached)) (some []) with
  | none =>
    rw [hf] at h
    cases h
  | some inc =>
    rw [hf] at h
    cases h
    refine ⟨?_, ?_, ?_, fun n => ?_⟩
    · ext n
      simp [listDiff, List.mem_filter, mem_listToSet]
    · ext n
      simp [listDiff, List.mem_filter, mem_listToSet]
    · ext n
      simp only [List.mem_toFinset, listUnion, listDiff, List.mem_append,
        List.mem_filter, mem_listToSet, Finset.mem_union, decide_eq_true_eq,
        decide_not, Bool.not_eq_true', decide_eq_false_iff_not]
      tauto
    · rw [incompleteFold_mem _ items [] inc hf n]
      simp only [List.not_mem_nil, false_or, listInter, List.mem_filter,
        mem_listToSet, Finset.mem_inter, List.mem_toFinset, decide_eq_true_eq]

/-- C4 witness: on a two-item cache (ids 1 and 2, id 1 without content) and
expected ids {1, 3}: missing = {3}, extra = {2}, incomplete = [1],
needsFetch = {3, 1}; membership of 1 in `incomplete` is witnessed by the
content-free item. -/
theorem c4_reconciler_sets_witness :
    c4Status.missing.toFinset = c4Qids.toFinset \ ([1, 2] : List Int).toFinset ∧
    c4Status.removed.toFinset = ([1, 2] : List Int).toFinset \ c4Qids.toFinset ∧
    c4Status.needs_fetch.toFinset = c4Status.missing.toFinset ∪ c4Status.incomplete.toFinset ∧
    ((1 : Int) ∈ c4Status.incomplete ↔
      (1 : Int) ∈ c4Qids.toFinset ∩ ([1, 2] : List Int).toFinset ∧
      ∃ it ∈ c4Items, truthy (effId it) = true ∧ pyToInt (effId it) = some 1 ∧
        check_completeness it = false) := by
  have h := c4_reconciler_sets c4Qids c4Items [1, 2] c4Status (by decide) (by decide)
  exact ⟨h.1, h.2.1, h.2.2.1, h.2.2.2 1⟩

/-! ## C3: merge idempotence — dict lemmas -/

theorem dictGet_mem {κ α : Type} [DecidableEq κ] (k : κ) (v : α) :
    ∀ m : List (κ × α), dictGet k m = some v → (k, v) ∈ m := by
  intro m
  induction m with
  | nil => intro h; cases h
  | cons kv r ih =>
    intro h
    by_cases hk : k = kv.1
    · rw [dictGet, if_pos hk] at h
      cases h
      subst hk
      simp
    · rw [dictGet, if_neg hk] at h
      exact List.mem_cons_of_mem _ (ih h)

theorem dictGet_none_not_mem_keys {κ α : Type} [DecidableEq κ] (k : κ) :
    ∀ m : List (κ × α), dictGet k m = none → k ∉ m.map Prod.fst := by
  intro m
  induction m with
  | nil => intro _; simp
  | cons kv r ih =>
    intro h
    by_cases hk : k = kv.1
    · rw [dictGet, if_pos hk] at h
      cases h
    · rw [dictGet, if_neg hk] at h
      simp only [List.map_cons, List.mem_cons]
      push_neg
      exact ⟨hk, ih h⟩

theorem dictGet_append_ne {κ α : Type} [DecidableEq κ] (k k2 : κ) (v : α)
    (m : List (κ × α)) (h : k ≠ k2) :
    dictGet k (m ++ [(k2, v)]) = dictGet k m := by
  induction m with
  | nil => simp [dictGet, h]
  | cons kv r ih =>
    by_cases hk : k = kv.1
    · simp [dictGet, hk]
    · show dictGet k (kv :: (r ++ [(k2, v)])) = dictGet k (kv :: r)
      rw [dictGet, if_neg hk, dictGet, if_neg hk]
      exact ih

theorem dictGet_append_self {κ α : Type} [DecidableEq κ] (k : κ) (v : α)
    (m : List (κ × α)) (h : dictGet k m = none) :
    dictGet k (m ++ [(k, v)]) = some v := by
  induction m with
  | nil => simp [dictGet]
  | cons kv r ih =>
    by_cases hk : k = kv.1
    · rw [dictGet, if_pos hk] at h
      cases h
    · rw [dictGet, if_neg hk] at h
      simp only [List.cons_append, dictGet, if_neg hk]
      exact ih h

theorem dictSet_not_mem_keys {κ α : Type} [DecidableEq κ] (k : κ) (v : α)
    (m : List (κ × α)) (h : k ∉ m.map Prod.fst) :
    dictSet k v m = m ++ [(k, v)] := by
  induction m with
  | nil => rfl
  | cons kv r ih =>
    simp only [List.map_cons, List.mem_cons] at h
    push_neg at h
    simp only [dictSet, if_neg h.1, List.cons_append]
    rw [ih h.2]

theorem keys_dictSet_mem {κ α : Type} [DecidableEq κ] (k : κ) (v : α) :
    ∀ m : List (κ × α), k ∈ m.map Prod.fst →
    (dictSet k v m).map Prod.fst = m.map Prod.fst := by
  intro m
  induction m with
  | nil => intro h; cases h
  | cons kv r ih =>
    intro h
    by_cases hk : k = kv.1
    · simp [dictSet, if_pos hk, hk]
    · simp only [List.map_cons, List.mem_cons] at h
      rcases h with h | h
      · exact absurd h hk
      · simp only [dictSet, if_neg hk, List.map_cons, ih h]

theorem mem_dictSet {κ α : Type} [DecidableEq κ] (k : κ) (v : α) :
    ∀ (m : List (κ × α)) (kv2 : κ × α), kv2 ∈ dictSet k v m →
    kv2 = (k, v) ∨ kv2 ∈ m := by
  intro m
  induction m with
  | nil =>
    intro kv2 h
    simp only [dictSet] at h
    exact Or.inl (List.mem_singleton.mp h)
  | cons kv r ih =>
    intro kv2 h
    by_cases hk : k = kv.1
    · rw [dictSet, if_pos hk] at h
      rcases List.mem_cons.mp h with h | h
      · exact Or.inl h
      · exact Or.inr (List.mem_cons_of_mem _ h)
    · rw [dictSet, if_neg hk] at h
      rcases List.mem_cons.mp h with h | h
      · exact Or.inr (h ▸ List.mem_cons_self _ _)
      · rcases ih kv2 h with h | h
        · exact Or.inl h
        · exact Or.inr (List.mem_cons_of_mem _ h)

theorem nodup_keys_dictSet {κ α : Type} [DecidableEq κ] (k : κ) (v : α)
    (m : List (κ × α)) (h : (m.map Prod.fst).Nodup) :
    ((dictSet k v m).map Prod.fst).Nodup := by
  by_cases hm : k ∈ m.map Prod.fst
  · rw [keys_dictSet_mem k v m hm]
    exact h
  · rw [dictSet_not_mem_keys k v m hm]
    simp only [List.map_append, List.map_cons, List.map_nil]
    rw [List.nodup_append]
    refine ⟨h, List.nodup_singleton k, fun a ha hb => ?_⟩
    rw [List.mem_singleton] at hb
    exact hm (hb ▸ ha)

/-! ## C3: merge idempotence — field-level lemmas -/

theorem mergeStep_oldv_self (m : List (Str × Value)) (k : Str) (x : Value)
    (h : dictGet k m = some x) : mergeStep m (k, x) = m := by
  unfold mergeStep
  simp only [h, Option.getD_some]
  split_ifs with h1 h2
  · exact dictSet_of_get_same k x m h
  · exact absurd h2.2 (lt_irrefl _)
  · rfl

theorem mergeStep_fix (u : Value) (m : List (Str × Value)) (k : Str) (x : Value)
    (h : dictGet k m = some (applyField x u)) : mergeStep m (k, x) = m := by
  by_cases h1 : u = VNull ∨ u = VStr []
  · rw [show applyField x u = x by unfold applyField; rw [if_pos h1]] at h
    exact mergeStep_oldv_self m k x h
  · by_cases h2 : truthy x = true ∧ strLen u < strLen x
    · rw [show applyField x u = x by
        unfold applyField; rw [if_neg h1, if_pos h2]] at h
      exact mergeStep_oldv_self m k x h
    · rw [show applyField x u = u by
        unfold applyField; rw [if_neg h1, if_neg h2]] at h
      unfold mergeStep
      simp only [h, Option.getD_some]
      rw [if_neg h1, if_neg h2]

theorem mergeFields_get_not_mem (f : List (Str × Value)) :
    ∀ (m : List (Str × Value)) (k : Str), k ∉ f.map Prod.fst →
    dictGet k (mergeFields m f) = dictGet k m := by
  induction f with
  | nil => intro m k _; rfl
  | cons kx f ih =>
    intro m k h
    simp only [List.map_cons, List.mem_cons] at h
    push_neg at h
    show dictGet k (mergeFields (mergeStep m kx) f) = dictGet k m
    rw [ih _ k h.2]
    obtain ⟨k2, x⟩ := kx
    exact mergeStep_get_ne m k2 k x h.1

/-- Re-merging the same field dict is the identity: every key of `f` already
holds its merged fixpoint. -/
theorem mergeFields_idem (f : List (Str × Value)) :
    ∀ v : List (Str × Value), (f.map Prod.fst).Nodup →
    mergeFields (mergeFields v f) f = mergeFields v f := by
  induction f with
  | nil => intro v _; rfl
  | cons kx f ih =>
    intro v hnd
    obtain ⟨k, x⟩ := kx
    simp only [List.map_cons, List.nodup_cons] at hnd
    show mergeFields (mergeStep (mergeFields (mergeStep v (k, x)) f) (k, x)) f =
      mergeFields (mergeStep v (k, x)) f
    rw [mergeStep_fix ((dictGet k v).getD VNull) _ k x
      (by rw [mergeFields_get_not_mem f _ k hnd.1, mergeStep_get_same])]
    exact ih _ hnd.2

theorem mergeFields_of_present (f : List (Str × Value)) :
    ∀ m : List (Str × Value), (∀ kv ∈ f, dictGet kv.1 m = some kv.2) →
    mergeFields m f = m := by
  induction f with
  | nil => intro m _; rfl
  | cons kx f ih =>
    intro m h
    show mergeFields (mergeStep m kx) f = m
    obtain ⟨k, x⟩ := kx
    rw [mergeStep_oldv_self m k x (h (k, x) (List.mem_cons_self _ _))]
    exact ih m fun kv hm => h kv (List.mem_cons_of_mem _ hm)

theorem dictGet_of_mem_nodup {κ α : Type} [DecidableEq κ] :
    ∀ (f : List (κ × α)) (k : κ) (x : α), (k, x) ∈ f →
    (f.map Prod.fst).Nodup → dictGet k f = some x := by
  intro f
  induction f with
  | nil => intro k x h; cases h
  | cons kv f ih =>
    intro k x h hnd
    simp only [List.map_cons, List.nodup_cons] at hnd
    rcases List.mem_cons.mp h with h | h
    · cases h
      rw [dictGet, if_pos rfl]
    · rw [dictGet, if_neg ?_]
      · exact ih k x h hnd.2
      · intro hk
        exact hnd.1 (hk ▸ List.mem_map_of_mem Prod.fst h)

/-- Merging a (duplicate-key-free) field dict into itself changes nothing. -/
theorem mergeFields_self (f : List (Str × Value))
    (h : (f.map Prod.fst).Nodup) : mergeFields f f = f :=
  mergeFields_of_present f f fun kv hm => dictGet_of_mem_nodup f kv.1 kv.2 hm h

/-! ## C3: merge idempotence — index-level lemmas -/

theorem effId_of_truthy (it : WorkItem) (h : truthy it.id = true) :
    effId it = it.id := by
  simp [effId, h]

theorem indexOk_dictSet (E : List (Value × WorkItem)) (it : WorkItem)
    (hE : IndexOk E) (h : truthy it.id = true) :
    IndexOk (dictSet it.id it E) := by
  constructor
  · intro kv hm
    rcases mem_dictSet it.id it E kv hm with hm | hm
    · subst hm
      exact ⟨rfl, h⟩
    · exact hE.1 kv hm
  · exact nodup_keys_dictSet it.id it E hE.2

theorem buildIndex_ok (items : List WorkItem)
    (h : ∀ it ∈ items, truthy it.id = true) : IndexOk (buildIndex items) := by
  unfold buildIndex
  have hgen : ∀ (l : List WorkItem) (E : List (Value × WorkItem)),
      (∀ it ∈ l, truthy it.id = true) → IndexOk E →
      IndexOk (l.foldl
        (fun E it => if truthy (effId it) then dictSet (effId it) it E else E) E) := by
    intro l
    induction l with
    | nil => exact fun E _ hE => hE
    | cons it l ih =>
      intro E hl hE
      rw [List.foldl_cons]
      have hit := hl it (List.mem_cons_self _ _)
      rw [effId_of_truthy it hit, if_pos hit]
      exact ih _ (fun it2 hm => hl it2 (List.mem_cons_of_mem _ hm))
        (indexOk_dictSet E it hE hit)
  exact hgen items [] h ⟨fun kv hm => absurd hm (List.not_mem_nil kv), List.nodup_nil⟩

theorem procItem_ok (st : MergeSt) (it : WorkItem) (hE : IndexOk st.ex)
    (h : truthy it.id = true) : IndexOk (procItem st it).ex := by
  unfold procItem
  rw [effId_of_truthy it h]
  simp only [h, if_true]
  cases hg : dictGet it.id st.ex with
  | some old =>
    simp only []
    split_ifs with hchg
    · exact hE
    · show IndexOk (dictSet it.id { old with fields := _ } st.ex)
      have hold := hE.1 (it.id, old) (dictGet_mem it.id old st.ex hg)
      constructor
      · intro kv hm
        rcases mem_dictSet _ _ _ kv hm with hm | hm
        · subst hm
          exact ⟨hold.1, hold.2⟩
        · exact hE.1 kv hm
      · exact nodup_keys_dictSet _ _ _ hE.2
  | none =>
    simp only []
    constructor
    · intro kv hm
      rcases List.mem_append.mp hm with hm | hm
      · exact hE.1 kv hm
      · rw [List.mem_singleton] at hm
        subst hm
        exact ⟨rfl, h⟩
    · simp only [List.map_append, List.map_cons, List.map_nil]
      rw [List.nodup_append]
      refine ⟨hE.2, List.nodup_singleton _, fun a ha hb => ?_⟩
      rw [List.mem_singleton] at hb
      exact dictGet_none_not_mem_keys it.id st.ex hg (hb ▸ ha)

theorem procItem_frame (st : MergeSt) (it : WorkItem) (k : Value)
    (h : k ≠ effId it) : dictGet k (procItem st it).ex = dictGet k st.ex := by
  simp only [procItem]
  split_ifs with htr
  · cases hg : dictGet (effId it) st.ex with
    | some old =>
      simp only []
      split_ifs with hchg
      · rfl
      · exact dictGet_dictSet_ne (effId it) k _ st.ex h
    | none =>
      simp only []
      exact dictGet_append_ne k (effId it) it st.ex h
  · rfl

theorem procAll_frame (batch : List WorkItem) :
    ∀ (st : MergeSt) (k : Value), (∀ it ∈ batch, k ≠ effId it) →
    dictGet k (batch.foldl procItem st).ex = dictGet k st.ex := by
  induction batch with
  | nil => intro st k _; rfl
  | cons it batch ih =>
    intro st k h
    rw [List.foldl_cons, ih _ k (fun it2 hm => h it2 (List.mem_cons_of_mem _ hm))]
    exact procItem_frame st it k (h it (List.mem_cons_self _ _))

theorem procAll_ok_and_fix (batch : List WorkItem) :
    ∀ st : MergeSt, IndexOk st.ex →
    (∀ it ∈ batch, truthy it.id = true) →
    (batch.map WorkItem.id).Nodup →
    (∀ it ∈ batch, (it.fields.map Prod.fst).Nodup) →
    IndexOk (batch.foldl procItem st).ex ∧
    ∀ it ∈ batch, ∃ old, dictGet it.id (batch.foldl procItem st).ex = some old ∧
      mergeFields old.fields it.fields = old.fields := by
  induction batch with
  | nil => exact fun st hE _ _ _ => ⟨hE, fun it hm => absurd hm (List.not_mem_nil it)⟩
  | cons it batch ih =>
    intro st hE H2 H3 H4
    have hit := H2 it (List.mem_cons_self _ _)
    rw [List.map_cons, List.nodup_cons] at H3
    have hE' := procItem_ok st it hE hit
    have hrest := ih (procItem st it) hE'
      (fun it2 hm => H2 it2 (List.mem_cons_of_mem _ hm)) H3.2
      (fun it2 hm => H4 it2 (List.mem_cons_of_mem _ hm))
    rw [List.foldl_cons]
    refine ⟨hrest.1, fun it2 hm => ?_⟩
    rcases List.mem_cons.mp hm with hm | hm
    · rw [hm]
      -- the head item: its entry reaches the merge fixpoint in `procItem st it`
      -- and the remaining items (distinct ids) leave that entry alone
      have hframe : dictGet it.id (batch.foldl procItem (procItem st it)).ex =
          dictGet it.id (procItem st it).ex := by
        refine procAll_frame batch (procItem st it) it.id fun it2 hm2 => ?_
        rw [effId_of_truthy it2 (H2 it2 (List.mem_cons_of_mem _ hm2))]
        intro hcon
        exact H3.1 (hcon ▸ List.mem_map_of_mem WorkItem.id hm2)
      rw [hframe]
      unfold procItem
      rw [effId_of_truthy it hit]
      simp only [hit, if_true]
      cases hg : dictGet it.id st.ex with
      | some old =>
        simp only []
        split_ifs with hchg
        · exact ⟨old, hg, hchg⟩
        · refine ⟨{ old with fields := mergeFields old.fields it.fields },
            dictGet_dictSet_same _ _ _, ?_⟩
          exact mergeFields_idem it.fields old.fields (H4 it (List.mem_cons_self _ _))
      | none =>
        simp only []
        refine ⟨it, dictGet_append_self it.id it st.ex hg, ?_⟩
        exact mergeFields_self it.fields (H4 it (List.mem_cons_self _ _))
    · exact hrest.2 it2 hm

theorem procItem_noop (st : MergeSt) (it : WorkItem) (htr : truthy it.id = true)
    (old : WorkItem) (hg : dictGet it.id st.ex = some old)
    (hfix : mergeFields old.fields it.fields = old.fields) :
    procItem st it = st := by
  unfold procItem
  rw [effId_of_truthy it htr]
  simp only [htr, if_true, hg]
  rw [if_pos hfix]

theorem procAll_noop (batch : List WorkItem) :
    ∀ st : MergeSt, (∀ it ∈ batch, truthy it.id = true) →
    (∀ it ∈ batch, ∃ old, dictGet it.id st.ex = some old ∧
      mergeFields old.fields it.fields = old.fields) →
    batch.foldl procItem st = st := by
  induction batch with
  | nil => exact fun st _ _ => rfl
  | cons it batch ih =>
    intro st H2 hfix
    obtain ⟨old, hg, hf⟩ := hfix it (List.mem_cons_self _ _)
    rw [List.foldl_cons,
      procItem_noop st it (H2 it (List.mem_cons_self _ _)) old hg hf]
    exact ih st (fun it2 hm => H2 it2 (List.mem_cons_of_mem _ hm))
      (fun it2 hm => hfix it2 (List.mem_cons_of_mem _ hm))

theorem buildIndex_go (l : List WorkItem) :
    ∀ acc : List (Value × WorkItem),
    (∀ it ∈ l, truthy it.id = true) →
    (∀ it ∈ l, it.id ∉ acc.map Prod.fst) →
    (l.map WorkItem.id).Nodup →
    l.foldl (fun E it => if truthy (effId it) then dictSet (effId it) it E else E) acc =
      acc ++ l.map (fun it => (it.id, it)) := by
  induction l with
  | nil => intro acc _ _ _; simp
  | cons it l ih =>
    intro acc h1 h2 h3
    have hit := h1 it (List.mem_cons_self _ _)
    rw [List.map_cons, List.nodup_cons] at h3
    rw [List.foldl_cons, effId_of_truthy it hit, if_pos hit,
      dictSet_not_mem_keys it.id it acc (h2 it (List.mem_cons_self _ _)),
      ih (acc ++ [(it.id, it)])
        (fun it2 hm => h1 it2 (List.mem_cons_of_mem _ hm))
        ?_ h3.2]
    · simp
    · intro it2 hm
      simp only [List.map_append, List.map_cons, List.map_nil, List.mem_append,
        List.mem_singleton]
      push_neg
      refine ⟨h2 it2 (List.mem_cons_of_mem _ hm), fun hcon => ?_⟩
      exact h3.1 (hcon ▸ List.mem_map_of_mem WorkItem.id hm)

theorem buildIndex_of_values (E : List (Value × WorkItem)) (hE : IndexOk E) :
    buildIndex (E.map Prod.snd) = E := by
  unfold buildIndex
  have hids : (E.map Prod.snd).map WorkItem.id = E.map Prod.fst := by
    rw [List.map_map]
    exact List.map_congr_left fun kv hm => ((hE.1 kv hm).1).symm
  rw [buildIndex_go (E.map Prod.snd) []
    (fun it hm => by
      obtain ⟨kv, hkv, hkv2⟩ := List.mem_map.mp hm
      exact hkv2 ▸ (hE.1 kv hkv).2)
    (fun it _ => List.not_mem_nil _)
    (by rw [hids]; exact hE.2)]
  rw [List.nil_append, List.map_map]
  have : ∀ kv ∈ E, ((fun it => (it.id, it)) ∘ Prod.snd) kv = id kv := by
    intro kv hm
    have := (hE.1 kv hm).1
    simp only [Function.comp_apply, id]
    rw [← this]
  rw [List.map_congr_left this, List.map_id]

/-- C3 counterexample.  A batch holding two records with the same id whose
field values flip between the empty string and `None` makes the *second*
application of the merge report `updated = 2`, not 0, and mutate the field
twice (net zero): the claim's "no field changes and the updated count is 0"
fails, even though the resulting document is the same. -/
theorem c3_counterexample :
    (add_items_to_cache c3Batch (add_items_to_cache c3Batch c3Cache).1).2.2 = 2 ∧
    (add_items_to_cache c3Batch (add_items_to_cache c3Batch c3Cache).1).2.2 ≠ 0 := by
  decide

/-- C3 as amended.  For batches in which no two records carry the same id —
with every record (cached and incoming) bearing a truthy top-level `id` and
duplicate-free field dicts, as CPython dicts are — merging the same batch
twice yields exactly the same document as merging it once, and the second
application changes no field and reports `added = 0`, `updated = 0`. -/
theorem c3_merge_idempotent (batch items : List WorkItem)
    (H1 : ∀ it ∈ items, truthy it.id = true)
    (H2 : ∀ it ∈ batch, truthy it.id = true)
    (H3 : (batch.map WorkItem.id).Nodup)
    (H4 : ∀ it ∈ batch, (it.fields.map Prod.fst).Nodup) :
    add_items_to_cache batch (add_items_to_cache batch items).1 =
      ((add_items_to_cache batch items).1, 0, 0) := by
  have hspec := procAll_ok_and_fix batch ⟨buildIndex items, 0, 0⟩
    (buildIndex_ok items H1) H2 H3 H4
  show add_items_to_cache batch
      ((batch.foldl procItem ⟨buildIndex items, 0, 0⟩).ex.map Prod.snd) = _
  unfold add_items_to_cache
  rw [buildIndex_of_values _ hspec.1,
    procAll_noop batch ⟨(batch.foldl procItem ⟨buildIndex items, 0, 0⟩).ex, 0, 0⟩
      H2 hspec.2]

/-- C3 witness: a concrete duplicate-free batch (ids 1 and 2) over a
one-item cache — the second merge returns the same document with zero
counters. -/
theorem c3_merge_idempotent_witness :
    add_items_to_cache c3BatchW (add_items_to_cache c3BatchW c3CacheW).1 =
      ((add_items_to_cache c3BatchW c3CacheW).1, 0, 0) :=
  c3_merge_idempotent c3BatchW c3CacheW (by decide) (by decide) (by decide) (by decide)

end TicketQuality
